import Mathlib

/-!
Shallow embedding of evaluate_convex.py (Convex Rules Evaluator).

Python JSON values (the result of json.loads) are modelled by PyVal;
Python None and JSON null are the same object, hence one constructor.
JSON numbers are modelled by Int (no claim involves floats).
Dictionaries are association lists in insertion order.
-/

inductive PyVal where
  | none : PyVal
  | bool (b : Bool) : PyVal
  | num (n : Int) : PyVal
  | str (s : String) : PyVal
  | list (xs : List PyVal) : PyVal
  | dict (kvs : List (String × PyVal)) : PyVal

/-- Python dict lookup by (string) key: first binding wins; json.loads
already collapses duplicate keys, so dicts built from JSON are unique-keyed. -/
def pyLookup (k : String) : List (String × PyVal) → Option PyVal
  | [] => Option.none
  | (k', v) :: rest => if k' = k then some v else pyLookup k rest

mutual

/-- Python == on JSON values: structural equality, except that booleans
compare equal to their numeric value (True == 1, False == 0 in Python)
and dict comparison is key-based, not order-based. -/
def pyEq : PyVal → PyVal → Bool
  | PyVal.none, PyVal.none => true
  | PyVal.bool a, PyVal.bool b => a == b
  | PyVal.bool a, PyVal.num n => (if a then (1 : Int) else 0) == n
  | PyVal.num n, PyVal.bool a => n == (if a then (1 : Int) else 0)
  | PyVal.num a, PyVal.num b => a == b
  | PyVal.str a, PyVal.str b => a == b
  | PyVal.list a, PyVal.list b => pyEqList a b
  | PyVal.dict a, PyVal.dict b => a.length == b.length && pyEqAssoc a b
  | _, _ => false

def pyEqList : List PyVal → List PyVal → Bool
  | [], [] => true
  | x :: xs, y :: ys => pyEq x y && pyEqList xs ys
  | _, _ => false

def pyEqAssoc : List (String × PyVal) → List (String × PyVal) → Bool
  | [], _ => true
  | (k, v) :: rest, b =>
    (match pyLookup k b with
     | some w => pyEq v w
     | Option.none => false) && pyEqAssoc rest b

end

mutual

/-- Python repr() of a JSON value (used inside str() of containers). -/
def pyRepr : PyVal → String
  | PyVal.none => "None"
  | PyVal.bool true => "True"
  | PyVal.bool false => "False"
  | PyVal.num n => toString n
  | PyVal.str s => "'" ++ s ++ "'"
  | PyVal.list xs => "[" ++ String.intercalate ", " (pyReprList xs) ++ "]"
  | PyVal.dict kvs => "\x7b" ++ String.intercalate ", " (pyReprAssoc kvs) ++ "\x7d"

def pyReprList : List PyVal → List String
  | [] => []
  | v :: vs => pyRepr v :: pyReprList vs

def pyReprAssoc : List (String × PyVal) → List String
  | [] => []
  | (k, v) :: rest => ("'" ++ k ++ "': " ++ pyRepr v) :: pyReprAssoc rest

end

/-- Python str() of a JSON value, as used by f-string interpolation. -/
def pyStr : PyVal → String
  | PyVal.str s => s
  | v => pyRepr v

/-- Severity levels for rule violations (class Severity). -/
inductive Severity where
  | ERROR : Severity
  | WARNING : Severity
  | INFO : Severity
  | SUCCESS : Severity
deriving DecidableEq

/-- Types of rules that can be evaluated (class RuleType). -/
inductive RuleType where
  | REQUIRED : RuleType
  | FORBIDDEN : RuleType
  | RECOMMENDED : RuleType
deriving DecidableEq

/-- A single rule (dataclass Rule).  In Python, expected_value and
forbidden_value default to None, indistinguishable from JSON null, so both
are plain PyVal fields with PyVal.none as the absent value; the validator
is an optional predicate (a callable or None). -/
structure Rule where
  id : String
  description : String
  type : RuleType
  severity : Severity
  path : List String
  expected_value : PyVal
  forbidden_value : PyVal
  validator : Option (PyVal → Bool)
  fix_suggestion : Option String

/-- A rule violation found during evaluation (dataclass Violation). -/
structure Violation where
  rule : Rule
  config_file : String
  actual_value : PyVal
  message : String
  fix_suggestion : Option String

/-- Path navigation loop of TypeScriptConfigEvaluator._evaluate_rule:
walk rule.path through the config; a missing key or a non-dict value
yields None (the loop sets value = None and breaks). -/
def resolvePath : List String → PyVal → PyVal
  | [], v => v
  | k :: ks, v =>
    match v with
    | PyVal.dict m =>
      match pyLookup k m with
      | some v' => resolvePath ks v'
      | Option.none => PyVal.none
    | _ => PyVal.none

/-- Decides whether every segment of the path resolves through nested
dictionaries (the case in which the loop never takes its break branch). -/
def pathPresent : List String → PyVal → Bool
  | [], _ => true
  | k :: ks, v =>
    match v with
    | PyVal.dict m =>
      match pyLookup k m with
      | some v' => pathPresent ks v'
      | Option.none => false
    | _ => false

/-- Python dict indexing value[key], which raises KeyError when the key is
absent; used to model the raw indexing inside the guarded navigation loop. -/
def dictGetE (m : List (String × PyVal)) (k : String) : Except String PyVal :=
  match pyLookup k m with
  | some v => Except.ok v
  | Option.none => Except.error "KeyError"

/-- The same navigation loop with the indexing modelled as the partial
operation it is in Python: the guard (isinstance(value, dict) and key in
value) protects each value[key]. -/
def resolvePathE : List String → PyVal → Except String PyVal
  | [], v => Except.ok v
  | k :: ks, v =>
    match v with
    | PyVal.dict m =>
      if (pyLookup k m).isSome then
        match dictGetE m k with
        | Except.ok v' => resolvePathE ks v'
        | Except.error e => Except.error e
      else Except.ok PyVal.none
    | _ => Except.ok PyVal.none

def mkViolation (r : Rule) (cf : String) (v : PyVal) (msg : String) : Violation :=
  ⟨r, cf, v, msg, r.fix_suggestion⟩

/-- Python identity test x is None (the None singleton is identical to
every JSON null). -/
def pyIsNone : PyVal → Bool
  | PyVal.none => true
  | _ => false

/-- Kind dispatch of _evaluate_rule on the already-resolved value.
Mirrors the source: for REQUIRED/RECOMMENDED, an expected_value that is
not None is compared with !=, otherwise a truthy validator is invoked;
FORBIDDEN compares with == against forbidden_value. -/
def evalRuleOn (r : Rule) (cf : String) (v : PyVal) : Option Violation :=
  match r.type with
  | RuleType.REQUIRED =>
    if pyIsNone r.expected_value then
      match r.validator with
      | some f =>
        if f v then Option.none
        else some (mkViolation r cf v
          (r.description ++ ". Validation failed for value: " ++ pyStr v))
      | Option.none => Option.none
    else
      if pyEq v r.expected_value then Option.none
      else some (mkViolation r cf v
        (r.description ++ ". Expected: " ++ pyStr r.expected_value ++
         ", Got: " ++ pyStr v))
  | RuleType.FORBIDDEN =>
    if pyEq v r.forbidden_value then
      some (mkViolation r cf v
        (r.description ++ ". Forbidden value found: " ++ pyStr v))
    else Option.none
  | RuleType.RECOMMENDED =>
    if pyIsNone r.expected_value then
      match r.validator with
      | some f =>
        if f v then Option.none
        else some (mkViolation r cf v
          (r.description ++ ". Recommendation not followed for value: " ++ pyStr v))
      | Option.none => Option.none
    else
      if pyEq v r.expected_value then Option.none
      else some (mkViolation r cf v
        (r.description ++ ". Recommended: " ++ pyStr r.expected_value ++
         ", Got: " ++ pyStr v))

/-- TypeScriptConfigEvaluator._evaluate_rule: navigate to the config path,
then dispatch on the rule type. -/
def evaluateRule (r : Rule) (config : PyVal) (cf : String) : Option Violation :=
  evalRuleOn r cf (resolvePath r.path config)

/-- The skip test inside evaluate: is_references_config and rule.path and
rule.path[0] == 'compilerOptions' (an empty path is falsy). -/
def skipRule (isRef : Bool) (r : Rule) : Bool :=
  isRef && (match r.path with
            | p :: _ => p == "compilerOptions"
            | [] => false)

/-- The rule loop of evaluate: skipped rules land in neither list; every
other rule contributes either a violation or a passed entry, in order. -/
def evalLoop (rules : List Rule) (isRef : Bool) (config : PyVal) (cf : String) :
    List Violation × List Rule :=
  match rules with
  | [] => ([], [])
  | r :: rs =>
    let rest := evalLoop rs isRef config cf
    if skipRule isRef r then rest
    else
      match evaluateRule r config cf with
      | some v => (v :: rest.1, rest.2)
      | Option.none => (rest.1, r :: rest.2)

/-- A needle occurs as a contiguous subsequence of the haystack
(Python substring containment, used by the in operator on str). -/
def hasSub (n : List Char) : List Char → Bool
  | [] => n.isEmpty
  | c :: cs => n.isPrefixOf (c :: cs) || hasSub n cs

/-- Python membership test k in v for a string k: key lookup on dicts,
element equality on lists, substring test on strings; on numbers,
booleans and None it raises TypeError (modelled as Option.none). -/
def pyContains (k : String) : PyVal → Option Bool
  | PyVal.dict m => some (pyLookup k m).isSome
  | PyVal.list xs => some (xs.any (fun x => pyEq x (PyVal.str k)))
  | PyVal.str s => some (hasSub k.data s.data)
  | _ => Option.none

/-- The synthetic rule built by evaluate in its except branch. -/
def parseErrorRule : Rule :=
  ⟨"config-parse-error", "Failed to parse configuration file",
   RuleType.REQUIRED, Severity.ERROR, [],
   PyVal.none, PyVal.none, Option.none, Option.none⟩

/-- The single synthetic violation returned on a parse or file error. -/
def parseErrorViolation (cf e : String) : Violation :=
  ⟨parseErrorRule, cf, PyVal.none, "Failed to parse " ++ cf ++ ": " ++ e,
   Option.none⟩

/-- Result of one evaluate call: either the (violations, passed_rules)
pair, or an uncaught Python exception escaping the function. -/
inductive EvalOutcome where
  | ok (violations : List Violation) (passed : List Rule) : EvalOutcome
  | exn (msg : String) : EvalOutcome

/-- TypeScriptConfigEvaluator.evaluate.  The file read, comment
stripping and json.loads are summarised by the loaded argument: an
Except.error carries the JSONDecodeError/FileNotFoundError message caught
by the except clause.  On success the references check
('references' in config and 'compilerOptions' not in config, with
Python short-circuiting) precedes the rule loop; that membership test
raises TypeError on non-iterable configs, which no handler catches. -/
def evaluate (rules : List Rule) (configPath : String)
    (loaded : Except String PyVal) : EvalOutcome :=
  match loaded with
  | Except.error e => EvalOutcome.ok [parseErrorViolation configPath e] []
  | Except.ok config =>
    match pyContains "references" config with
    | Option.none => EvalOutcome.exn "TypeError: argument is not iterable"
    | some refIn =>
      if refIn then
        match pyContains "compilerOptions" config with
        | Option.none => EvalOutcome.exn "TypeError: argument is not iterable"
        | some coIn =>
          let res := evalLoop rules (!coIn) config configPath
          EvalOutcome.ok res.1 res.2
      else
        let res := evalLoop rules false config configPath
        EvalOutcome.ok res.1 res.2

/-- The is_references_config flag as computed for a dict config. -/
def isRefDict (m : List (String × PyVal)) : Bool :=
  (pyLookup "references" m).isSome && !(pyLookup "compilerOptions" m).isSome

/-- Violations produced for a dict config (first component of the loop). -/
def vsOf (rules : List Rule) (m : List (String × PyVal)) (cf : String) :
    List Violation :=
  (evalLoop rules (isRefDict m) (PyVal.dict m) cf).1

/-- Passed rules produced for a dict config (second component of the loop). -/
def psOf (rules : List Rule) (m : List (String × PyVal)) (cf : String) :
    List Rule :=
  (evalLoop rules (isRefDict m) (PyVal.dict m) cf).2

/-- ConvexRulesReporter.report, reduced to its data content: the severity
counts over the violations and the returned pass/fail boolean (the
printing is presentation only).  The code returns False when
error_count > 0, True when only warnings remain, True otherwise. -/
def reportPassed (violations : List Violation) : Bool :=
  let error_count := violations.countP (fun v => v.rule.severity == Severity.ERROR)
  let warning_count := violations.countP (fun v => v.rule.severity == Severity.WARNING)
  if error_count > 0 then false
  else if warning_count > 0 then true
  else true

/-- The per-file loop of main: all_passed starts True and is cleared by
any report that returns False; the process exits 0 iff all_passed. -/
def mainExitCode (fileViolations : List (List Violation)) : Nat :=
  if fileViolations.all (fun vs => reportPassed vs) then 0 else 1

/-!
Comment stripping (lines 299-318 of evaluate): string literals are
located first (re.sub with a JSON-string regex, each replaced by a
placeholder with no slash, star, quote or newline in it), then block
comments and line comments are removed in two passes, then the surviving
placeholders are restored verbatim.  The token list below is that
placeholder text: raw characters plus opaque literal atoms; flattening
the tokens is the restore step (uuid placeholders collide with nothing).
-/

/-- Python regex whitespace class (the ASCII part actually exercised). -/
def isPySpace (c : Char) : Bool :=
  c == ' ' || c == '\t' || c == '\n' || c == '\r' || c == '\x0b' || c == '\x0c'

/-- Scanner for the tail of a string literal, entered after the opening
quote; implements the regex "[^"\\]*(?:\\.[^"\\]*)*" whose dot does not
match a newline, so an escape followed by a newline aborts the literal.
Returns the literal text after the opening quote (closing quote included)
and the rest of the input. -/
def lexStringF : Nat → List Char → Option (List Char × List Char)
  | 0, _ => Option.none
  | fuel + 1, cs =>
    let chunk := cs.takeWhile (fun c => c != '"' && c != '\\')
    match cs.dropWhile (fun c => c != '"' && c != '\\') with
    | [] => Option.none
    | d :: rest =>
      if d == '"' then some (chunk ++ ['"'], rest)
      else
        match rest with
        | [] => Option.none
        | e :: rest' =>
          if e != '\n' then
            match lexStringF fuel rest' with
            | some (l, rest'') => some (chunk ++ d :: e :: l, rest'')
            | Option.none => Option.none
          else Option.none

def lexString (cs : List Char) : Option (List Char × List Char) :=
  lexStringF cs.length cs

/-- Placeholder text: raw characters interleaved with protected string
literal atoms. -/
inductive Tok where
  | raw (c : Char) : Tok
  | lit (cs : List Char) : Tok

/-- Splits input text into raw characters and complete string literals,
scanning left to right like re.sub: an opening quote with no matching
close stays a raw character. -/
def lexToksF : Nat → List Char → List Tok
  | 0, cs => cs.map Tok.raw
  | _ + 1, [] => []
  | fuel + 1, c :: cs =>
    if c == '"' then
      match lexString cs with
      | some (l, rest) => Tok.lit ('"' :: l) :: lexToksF fuel rest
      | Option.none => Tok.raw '"' :: lexToksF fuel cs
    else Tok.raw c :: lexToksF fuel cs

def lexToks (cs : List Char) : List Tok := lexToksF cs.length cs

/-- Restores the text: literal atoms are put back verbatim. -/
def flattenToks : List Tok → List Char
  | [] => []
  | Tok.raw c :: ts => c :: flattenToks ts
  | Tok.lit l :: ts => l ++ flattenToks ts

def isRawC (c : Char) : Tok → Bool
  | Tok.raw c' => c' == c
  | Tok.lit _ => false

/-- Finds the first star-slash pair of raw characters, returning what
follows it; literal atoms (placeholders) contain neither star nor slash. -/
def findClose : List Tok → Option (List Tok)
  | [] => Option.none
  | [_] => Option.none
  | t1 :: t2 :: rest =>
    if isRawC '*' t1 && isRawC '/' t2 then some rest
    else findClose (t2 :: rest)

/-- Block comment removal pass: the regex deletes from each slash-star to
the first following star-slash; a slash-star with no close anywhere ahead
can never match, nor can anything after it, so the rest is kept as is. -/
def dropBlockF : Nat → List Tok → List Tok
  | 0, ts => ts
  | _ + 1, [] => []
  | _ + 1, [t] => [t]
  | fuel + 1, t1 :: t2 :: rest =>
    if isRawC '/' t1 && isRawC '*' t2 then
      match findClose rest with
      | some rest' => dropBlockF fuel rest'
      | Option.none => t1 :: t2 :: rest
    else t1 :: dropBlockF fuel (t2 :: rest)

/-- True for tokens the line-comment body regex can swallow: any raw
character but a newline or carriage return, and every placeholder (a
placeholder never contains a newline, even when the literal it stands
for does). -/
def notNL : Tok → Bool
  | Tok.raw c => c != '\n' && c != '\r'
  | Tok.lit _ => true

/-- Line comment removal pass: a double slash of raw characters and
everything up to the next newline or carriage return is deleted. -/
def dropLineF : Nat → List Tok → List Tok
  | 0, ts => ts
  | _ + 1, [] => []
  | _ + 1, [t] => [t]
  | fuel + 1, t1 :: t2 :: rest =>
    if isRawC '/' t1 && isRawC '/' t2 then
      dropLineF fuel (rest.dropWhile notNL)
    else t1 :: dropLineF fuel (t2 :: rest)

/-- Decides that no comment opener occurs in the raw (outside string
literal) part of the token stream: no slash-star and no slash-slash pair
of adjacent raw characters.  Text whose quotes pair up and whose content
outside string literals has no comment opener - in particular any
already-clean JSON text, which has no slash at all outside strings -
satisfies this. -/
def commentFree : List Tok → Bool
  | [] => true
  | [_] => true
  | t1 :: t2 :: rest =>
    !(isRawC '/' t1 && (isRawC '*' t2 || isRawC '/' t2)) &&
      commentFree (t2 :: rest)

/-- The whole comment stripping transformation of evaluate: protect
string literals, remove block comments, remove line comments, restore. -/
def stripComments (s : String) : String :=
  let toks := lexToks s.data
  let afterBlock := dropBlockF toks.length toks
  String.mk (flattenToks (dropLineF afterBlock.length afterBlock))

/-- One pass of the trailing comma regex: a comma followed by optional
whitespace and a closing brace or bracket is replaced by the whitespace
and the bracket; scanning resumes after the bracket. -/
def stripPassF : Nat → List Char → List Char
  | 0, cs => cs
  | _ + 1, [] => []
  | fuel + 1, c :: cs =>
    if c == ',' then
      let ws := cs.takeWhile isPySpace
      match cs.dropWhile isPySpace with
      | b :: rest =>
        if b == '}' || b == ']' then ws ++ b :: stripPassF fuel rest
        else c :: stripPassF fuel cs
      | [] => c :: stripPassF fuel cs
    else c :: stripPassF fuel cs

def stripPass (cs : List Char) : List Char := stripPassF cs.length cs

/-- Trailing comma stripping as run by evaluate: three passes. -/
def stripTrailingCommas (s : String) : String :=
  String.mk (stripPass (stripPass (stripPass s.data)))

/-- The full text cleaning done before json.loads. -/
def cleanConfigText (s : String) : String :=
  stripTrailingCommas (stripComments s)

/-!
MDCParser.parse, front matter fixing (line 88): the substitution
re.sub(r'(globs:\s*)([^\n"]+)', r'\1"\2"', text) quotes the value of a
globs: line only.  Note \s also matches newlines, and the greedy \s*
backtracks just enough to leave a nonempty [^\n"]+ value.
-/

def globsKey : List Char := ['g', 'l', 'o', 'b', 's', ':']

/-- Can the value part [^\n"]+ start here? -/
def headOkQ : List Char → Bool
  | [] => false
  | c :: _ => c != '\n' && c != '"'

/-- Backtracking of the greedy \s*: revWs is the reversed whitespace run
still assigned to group one; characters move from its end onto the value
position until the value can start. -/
def pickRev : List Char → List Char → Option (List Char × List Char)
  | [], tail => if headOkQ tail then some ([], tail) else Option.none
  | c :: r, tail =>
    if headOkQ tail then some ((c :: r).reverse, tail)
    else pickRev r (c :: tail)

/-- The substitution scan: at each occurrence of globs: try the match;
on success emit group one, the quoted value, and resume after the value;
otherwise copy one character. -/
def autoQuoteGoF : Nat → List Char → List Char
  | 0, cs => cs
  | _ + 1, [] => []
  | fuel + 1, c :: cs =>
    if globsKey.isPrefixOf (c :: cs) then
      let after := cs.drop 5
      let ws := after.takeWhile isPySpace
      let tail := after.dropWhile isPySpace
      match pickRev ws.reverse tail with
      | some (grp, vstart) =>
        let value := vstart.takeWhile (fun ch => ch != '\n' && ch != '"')
        let rest := vstart.dropWhile (fun ch => ch != '\n' && ch != '"')
        globsKey ++ grp ++ '"' :: value ++ '"' :: autoQuoteGoF fuel rest
      | Option.none => c :: autoQuoteGoF fuel cs
    else c :: autoQuoteGoF fuel cs

/-- The front matter fix applied before yaml parsing. -/
def autoQuote (s : String) : String :=
  String.mk (autoQuoteGoF s.data.length s.data)

/-!
MDCParser.parse, section splitting (lines 100-109):
re.split(r'^(#+\s+.*?)$', content, flags=re.MULTILINE) and the loop that
stores sections[title] = body.  A heading match needs one or more hash
marks at a line start followed by at least one whitespace character
(\s can cross newlines) and runs to the end of that line; the text before
the first heading (the would-be root section) is never stored.
-/

/-- Attempts the heading regex at a line start: returns the matched
header text and the rest of input (beginning with the newline the match
stopped at, or empty at end of input). -/
def tryHeading (cs : List Char) : Option (List Char × List Char) :=
  let hs := cs.takeWhile (fun c => c == '#')
  if hs.isEmpty then Option.none
  else
    let a1 := cs.dropWhile (fun c => c == '#')
    let ws := a1.takeWhile isPySpace
    if ws.isEmpty then Option.none
    else
      let a2 := a1.dropWhile isPySpace
      let title := a2.takeWhile (fun c => c != '\n')
      some (hs ++ ws ++ title, a2.dropWhile (fun c => c != '\n'))

/-- Scans the document from a line start: returns the text before the
first heading and the list of (header, body) pairs, each body running to
the next heading. -/
def scanPartsF : Nat → List Char → List Char × List (List Char × List Char)
  | 0, cs => (cs, [])
  | _ + 1, [] => ([], [])
  | fuel + 1, c :: cs =>
    match tryHeading (c :: cs) with
    | some (h, after) =>
      match after with
      | [] => ([], [(h, [])])
      | nl :: rest =>
        let res := scanPartsF fuel rest
        ([], (h, nl :: res.1) :: res.2)
    | Option.none =>
      let line := (c :: cs).takeWhile (fun ch => ch != '\n')
      match (c :: cs).dropWhile (fun ch => ch != '\n') with
      | [] => (line, [])
      | nl :: rest =>
        let res := scanPartsF fuel rest
        (line ++ nl :: res.1, res.2)

def scanParts (cs : List Char) : List Char × List (List Char × List Char) :=
  scanPartsF cs.length cs

/-- Python str.strip() with no argument: whitespace off both ends. -/
def pyStrip (s : String) : String :=
  String.mk (((s.data.dropWhile isPySpace).reverse.dropWhile isPySpace).reverse)

/-- The section name cleanup re.sub(r'^#+\s+', '', header): anchored, so
applied at most once, and only when hashes are followed by whitespace. -/
def stripHashWs (s : String) : String :=
  let cs := s.data
  let hs := cs.takeWhile (fun c => c == '#')
  if hs.isEmpty then s
  else
    let a1 := cs.dropWhile (fun c => c == '#')
    let ws := a1.takeWhile isPySpace
    if ws.isEmpty then s else String.mk (a1.dropWhile isPySpace)

def sectionName (h : List Char) : String := stripHashWs (pyStrip (String.mk h))

/-- The sections mapping built by the parse loop, as the ordered list of
assignments doc.sections[name] = body; the pre-heading text is dropped
(the loop starts at the first captured header). -/
def parseMDCSections (content : String) : List (String × String) :=
  (scanParts content.data).2.map (fun hb => (sectionName hb.1, String.mk hb.2))

/-- Lookup in the sections mapping: the last assignment to a key wins,
exactly as repeated dict assignment does. -/
def sectionsFind (secs : List (String × String)) (k : String) : Option String :=
  ((secs.reverse).find? (fun kv => kv.1 == k)).map (fun kv => kv.2)

/-- Satisfaction of one rule by a parsed configuration, phrased from the
specification: a Required/Recommended rule is satisfied when its resolved
value equals the expected value (if one is set) and satisfies its
validator (if one is set); a Forbidden rule is satisfied when the
resolved value does not equal the forbidden value. -/
def ruleSatisfied (r : Rule) (cfg : PyVal) : Prop :=
  match r.type with
  | RuleType.FORBIDDEN => pyEq (resolvePath r.path cfg) r.forbidden_value = false
  | _ =>
    (pyIsNone r.expected_value = false →
       pyEq (resolvePath r.path cfg) r.expected_value = true) ∧
    (∀ f, r.validator = some f → f (resolvePath r.path cfg) = true)

/-- The ts-strict-types rule emitted by the extractor, used as sample data. -/
def strictRule : Rule :=
  ⟨"ts-strict-types", "TypeScript strict mode should be enabled",
   RuleType.REQUIRED, Severity.ERROR, ["compilerOptions", "strict"],
   PyVal.bool true, PyVal.none, Option.none,
   some "Set 'strict': true in compilerOptions"⟩

/-- A configuration satisfying strictRule. -/
def strictCfg : List (String × PyVal) :=
  [("compilerOptions", PyVal.dict [("strict", PyVal.bool true)])]

/-- A references-only configuration. -/
def refsOnlyCfg : List (String × PyVal) :=
  [("references", PyVal.list [PyVal.dict [("path", PyVal.str "./x")]])]

/-- A sample Error-severity violation. -/
def sampleViolation : Violation :=
  mkViolation strictRule "tsconfig.json" (PyVal.bool false) "strict is false"

/-!
Theorems.  Helper lemmas come first; each claim of the specification has
exactly one main theorem, marked with its claim id.
-/

theorem takeWhile_all {α : Type} {p : α → Bool} :
    ∀ (l : List α), (∀ c ∈ l, p c = true) → l.takeWhile p = l := by
  intro l h
  induction l with
  | nil => rfl
  | cons c cs ih =>
    rw [List.takeWhile_cons, if_pos (h c (List.mem_cons_self c cs))]
    rw [ih (fun x hx => h x (List.mem_cons_of_mem c hx))]

theorem dropWhile_all {α : Type} {p : α → Bool} :
    ∀ (l : List α), (∀ c ∈ l, p c = true) → l.dropWhile p = [] := by
  intro l h
  induction l with
  | nil => rfl
  | cons c cs ih =>
    rw [List.dropWhile_cons, if_pos (h c (List.mem_cons_self c cs))]
    exact ih (fun x hx => h x (List.mem_cons_of_mem c hx))

theorem evalRuleOn_rule {r : Rule} {cf : String} {v : PyVal} {w : Violation}
    (h : evalRuleOn r cf v = some w) : w.rule = r := by
  unfold evalRuleOn at h
  cases r.type <;>
    ((repeat' split at h) <;>
      first
        | exact Option.noConfusion h
        | (injection h with h'; subst h'; rfl))

theorem mem_evalLoop_fst {rules : List Rule} {isRef : Bool} {cfg : PyVal}
    {cf : String} {w : Violation} :
    w ∈ (evalLoop rules isRef cfg cf).1 ↔
      ∃ r ∈ rules, skipRule isRef r = false ∧ evaluateRule r cfg cf = some w := by
  induction rules with
  | nil => simp [evalLoop]
  | cons r rs ih =>
    simp only [evalLoop]
    by_cases hs : skipRule isRef r
    · simp only [if_pos hs, ih, List.mem_cons]
      constructor
      · rintro ⟨r', hr', hsk, he⟩; exact ⟨r', Or.inr hr', hsk, he⟩
      · rintro ⟨r', hr' | hr', hsk, he⟩
        · subst hr'; rw [hs] at hsk; exact Bool.noConfusion hsk
        · exact ⟨r', hr', hsk, he⟩
    · rw [Bool.not_eq_true] at hs
      cases he : evaluateRule r cfg cf with
      | none =>
        simp only [hs, if_neg Bool.false_ne_true, he, ih, List.mem_cons]
        constructor
        · rintro ⟨r', hr', hsk, hev⟩; exact ⟨r', Or.inr hr', hsk, hev⟩
        · rintro ⟨r', hr' | hr', hsk, hev⟩
          · subst hr'; rw [he] at hev; exact Option.noConfusion hev
          · exact ⟨r', hr', hsk, hev⟩
      | some v' =>
        simp only [hs, if_neg Bool.false_ne_true, he, List.mem_cons, ih]
        constructor
        · rintro (hw | ⟨r', hr', hsk, hev⟩)
          · exact ⟨r, Or.inl rfl, hs, by rw [he, hw]⟩
          · exact ⟨r', Or.inr hr', hsk, hev⟩
        · rintro ⟨r', hr' | hr', hsk, hev⟩
          · subst hr'; rw [he] at hev; injection hev with hv; exact Or.inl hv.symm
          · exact Or.inr ⟨r', hr', hsk, hev⟩
    
theorem mem_evalLoop_snd {rules : List Rule} {isRef : Bool} {cfg : PyVal}
    {cf : String} {r : Rule} :
    r ∈ (evalLoop rules isRef cfg cf).2 ↔
      r ∈ rules ∧ skipRule isRef r = false ∧ evaluateRule r cfg cf = Option.none := by
  induction rules with
  | nil => simp [evalLoop]
  | cons r' rs ih =>
    simp only [evalLoop]
    by_cases hs : skipRule isRef r'
    · simp only [if_pos hs, ih, List.mem_cons]
      constructor
      · rintro ⟨hr, hsk, he⟩; exact ⟨Or.inr hr, hsk, he⟩
      · rintro ⟨hr | hr, hsk, he⟩
        · subst hr; rw [hs] at hsk; exact Bool.noConfusion hsk
        · exact ⟨hr, hsk, he⟩
    · rw [Bool.not_eq_true] at hs
      cases he : evaluateRule r' cfg cf with
      | none =>
        simp only [hs, if_neg Bool.false_ne_true, he, List.mem_cons, ih]
        constructor
        · rintro (hw | ⟨hr, hsk, hev⟩)
          · subst hw; exact ⟨Or.inl rfl, hs, he⟩
          · exact ⟨Or.inr hr, hsk, hev⟩
        · rintro ⟨hr | hr, hsk, hev⟩
          · subst hr; exact Or.inl rfl
          · exact Or.inr ⟨hr, hsk, hev⟩
      | some v' =>
        simp only [hs, if_neg Bool.false_ne_true, he, ih, List.mem_cons]
        constructor
        · rintro ⟨hr, hsk, hev⟩; exact ⟨Or.inr hr, hsk, hev⟩
        · rintro ⟨hr | hr, hsk, hev⟩
          · subst hr; rw [he] at hev; exact Option.noConfusion hev
          · exact ⟨hr, hsk, hev⟩

theorem evalLoop_length (rules : List Rule) (isRef : Bool) (cfg : PyVal)
    (cf : String) :
    (evalLoop rules isRef cfg cf).1.length + (evalLoop rules isRef cfg cf).2.length
      = (rules.filter (fun r => !skipRule isRef r)).length := by
  induction rules with
  | nil => rfl
  | cons r rs ih =>
    by_cases hs : skipRule isRef r
    · simp [evalLoop, List.filter_cons, hs, ih]
    · rw [Bool.not_eq_true] at hs
      cases he : evaluateRule r cfg cf <;>
        simp [evalLoop, List.filter_cons, hs, he] <;> omega

theorem evaluate_dict (rules : List Rule) (m : List (String × PyVal))
    (cf : String) :
    evaluate rules cf (Except.ok (PyVal.dict m))
      = EvalOutcome.ok (vsOf rules m cf) (psOf rules m cf) := by
  unfold evaluate vsOf psOf isRefDict
  simp only [pyContains]
  cases h1 : (pyLookup "references" m).isSome <;>
    cases h2 : (pyLookup "compilerOptions" m).isSome <;>
      simp [h1, h2]

/-- C1: the reporter's pass/fail verdict for one configuration file is
false if and only if at least one Error-severity violation exists for
that file (so a file with only Warning/Info violations passes), and the
overall exit code of the evaluation loop is 0 exactly when no evaluated
file has an Error-severity violation, 1 otherwise. -/
theorem c1_reporter_verdict_exit :
    (∀ vs : List Violation,
       reportPassed vs = false ↔ ∃ v ∈ vs, v.rule.severity = Severity.ERROR) ∧
    (∀ vss : List (List Violation),
       mainExitCode vss = 0 ↔
         ∀ vs ∈ vss, ∀ v ∈ vs, v.rule.severity ≠ Severity.ERROR) := by
  have h1 : ∀ vs : List Violation,
      reportPassed vs = false ↔ ∃ v ∈ vs, v.rule.severity = Severity.ERROR := by
    intro vs
    have hcnt : reportPassed vs = false ↔
        0 < vs.countP (fun v => v.rule.severity == Severity.ERROR) := by
      by_cases h : 0 < vs.countP (fun v => v.rule.severity == Severity.ERROR) <;>
        simp [reportPassed, h]
    rw [hcnt, List.countP_pos_iff]
    simp only [beq_iff_eq]
  refine ⟨h1, ?_⟩
  intro vss
  have hall : mainExitCode vss = 0 ↔
      vss.all (fun vs => reportPassed vs) = true := by
    unfold mainExitCode
    split <;> simp_all
  rw [hall, List.all_eq_true]
  constructor
  · intro h vs hvs v hv hsev
    have hp := h vs hvs
    have hf := (h1 vs).mpr ⟨v, hv, hsev⟩
    rw [hp] at hf
    exact Bool.noConfusion hf
  · intro h vs hvs
    cases hp : reportPassed vs with
    | true => rfl
    | false =>
      obtain ⟨v, hv, hsev⟩ := (h1 vs).mp hp
      exact absurd hsev (h vs hvs v hv)

theorem c1_witness :
    reportPassed [sampleViolation] = false ∧ mainExitCode [[sampleViolation]] = 1 := by
  have hf : reportPassed [sampleViolation] = false :=
    (c1_reporter_verdict_exit.1 [sampleViolation]).mpr
      ⟨sampleViolation, List.mem_singleton.mpr rfl, rfl⟩
  refine ⟨hf, ?_⟩
  have hiff := (c1_reporter_verdict_exit.2 [[sampleViolation]])
  have hne : mainExitCode [[sampleViolation]] ≠ 0 := by
    intro hm
    exact absurd rfl (hiff.mp hm [sampleViolation] (List.mem_singleton.mpr rfl)
      sampleViolation (List.mem_singleton.mpr rfl))
  unfold mainExitCode at hne ⊢
  split at hne
  · exact absurd rfl hne
  · rfl

/-- C3: for every configuration whose load or parse fails (the except
branch catching JSONDecodeError and FileNotFoundError), evaluate returns
exactly one synthetic violation describing the failure together with an
empty passed-rules list, and the error is not propagated (the outcome is
an ordinary return, not an exception). -/
theorem c3_parse_error_single_violation :
    ∀ (rules : List Rule) (cf e : String),
      evaluate rules cf (Except.error e)
        = EvalOutcome.ok [parseErrorViolation cf e] [] :=
  fun _ _ _ => rfl

theorem resolvePathE_eq (ks : List String) (cfg : PyVal) :
    resolvePathE ks cfg = Except.ok (resolvePath ks cfg) := by
  induction ks generalizing cfg with
  | nil => rfl
  | cons k ks ih =>
    cases cfg with
    | dict m =>
      simp only [resolvePathE, resolvePath, dictGetE]
      cases h : pyLookup k m <;> simp [h, ih]
    | none => rfl
    | bool b => rfl
    | num n => rfl
    | str s => rfl
    | list xs => rfl

theorem resolvePath_absent :
    ∀ (ks : List String) (cfg : PyVal), pathPresent ks cfg = false →
      resolvePath ks cfg = PyVal.none := by
  intro ks
  induction ks with
  | nil => intro cfg h; exact absurd h (by simp [pathPresent])
  | cons k ks ih =>
    intro cfg h
    cases cfg with
    | dict m =>
      simp only [resolvePath, pathPresent] at *
      cases hl : pyLookup k m with
      | none => simp [hl]
      | some v' => rw [hl] at h; simp only [hl]; exact ih v' h
    | none => rfl
    | bool b => rfl
    | num n => rfl
    | str s => rfl
    | list xs => rfl

/-- C5: path resolution is total.  The navigation loop with its raw dict
indexing modelled as a partial operation always returns normally and
agrees with the pure resolution; whenever a path segment is missing or a
non-dict value is reached, resolution yields the absent value None
rather than an error, and rule evaluation then proceeds on that absent
value. -/
theorem c5_path_resolution_total :
    ∀ (ks : List String) (cfg : PyVal) (r : Rule) (cf : String),
      resolvePathE ks cfg = Except.ok (resolvePath ks cfg) ∧
      (pathPresent ks cfg = false → resolvePath ks cfg = PyVal.none) ∧
      (pathPresent r.path cfg = false →
         evaluateRule r cfg cf = evalRuleOn r cf PyVal.none) := by
  intro ks cfg r cf
  refine ⟨resolvePathE_eq ks cfg, resolvePath_absent ks cfg, ?_⟩
  intro h
  unfold evaluateRule
  rw [resolvePath_absent r.path cfg h]

theorem c5_witness :
    resolvePathE ["compilerOptions", "strict"] (PyVal.dict refsOnlyCfg)
        = Except.ok PyVal.none ∧
    resolvePath ["compilerOptions", "strict"] (PyVal.dict refsOnlyCfg)
        = PyVal.none := by
  obtain ⟨h1, h2, _⟩ := c5_path_resolution_total ["compilerOptions", "strict"]
    (PyVal.dict refsOnlyCfg) strictRule "tsconfig.json"
  have habs : pathPresent ["compilerOptions", "strict"] (PyVal.dict refsOnlyCfg)
      = false := by
    simp [pathPresent, refsOnlyCfg, pyLookup]
  have h3 := h2 habs
  exact ⟨by rw [h1, h3], h3⟩

theorem ruleSatisfied_no_violation {r : Rule} {cfg : PyVal} {cf : String}
    (h : ruleSatisfied r cfg) : evaluateRule r cfg cf = Option.none := by
  unfold evaluateRule evalRuleOn
  unfold ruleSatisfied at h
  cases htype : r.type with
  | FORBIDDEN =>
    rw [htype] at h
    simp only [h, Bool.false_eq_true, if_false]
  | REQUIRED =>
    rw [htype] at h
    obtain ⟨h1, h2⟩ := h
    cases hn : pyIsNone r.expected_value with
    | true =>
      simp only [hn, if_true]
      cases hval : r.validator with
      | none => rfl
      | some f => simp [h2 f hval]
    | false => simp [hn, h1 hn]
  | RECOMMENDED =>
    rw [htype] at h
    obtain ⟨h1, h2⟩ := h
    cases hn : pyIsNone r.expected_value with
    | true =>
      simp only [hn, if_true]
      cases hval : r.validator with
      | none => rfl
      | some f => simp [h2 f hval]
    | false => simp [hn, h1 hn]

theorem evalLoop_fst_nil {rules : List Rule} {isRef : Bool} {cfg : PyVal}
    {cf : String} (h : ∀ r ∈ rules, evaluateRule r cfg cf = Option.none) :
    (evalLoop rules isRef cfg cf).1 = [] := by
  induction rules with
  | nil => rfl
  | cons r rs ih =>
    have hr := h r (List.mem_cons_self r rs)
    have hrest := ih (fun x hx => h x (List.mem_cons_of_mem r hx))
    by_cases hs : skipRule isRef r <;> simp [evalLoop, hs, hr, hrest]

/-- C2: for every configuration that parses successfully (a configuration
being a mapping, as in the data model) whose contents satisfy every rule
of the rule list - each Required/Recommended rule's resolved value equals
its set expected value and satisfies its set validator, and no Forbidden
rule's resolved value equals its forbidden value - evaluation returns an
empty violation list. -/
theorem c2_satisfied_no_violations :
    ∀ (rules : List Rule) (m : List (String × PyVal)) (cf : String),
      (∀ r ∈ rules, ruleSatisfied r (PyVal.dict m)) →
      evaluate rules cf (Except.ok (PyVal.dict m))
        = EvalOutcome.ok [] (psOf rules m cf) := by
  intro rules m cf h
  rw [evaluate_dict]
  have : vsOf rules m cf = [] :=
    evalLoop_fst_nil (fun r hr => ruleSatisfied_no_violation (h r hr))
  rw [this]

theorem c2_witness :
    evaluate [strictRule] "tsconfig.json" (Except.ok (PyVal.dict strictCfg))
      = EvalOutcome.ok [] (psOf [strictRule] strictCfg "tsconfig.json") := by
  apply c2_satisfied_no_violations
  intro r hr
  rw [List.mem_singleton] at hr
  subst hr
  unfold ruleSatisfied
  constructor
  · intro _
    simp [strictRule, strictCfg, resolvePath, pyLookup, pyEq]
  · intro f hf
    exact Option.noConfusion hf

theorem skipRule_true_iff {r : Rule} :
    skipRule true r = true ↔ r.path.head? = some "compilerOptions" := by
  cases hp : r.path with
  | nil => simp [skipRule, hp]
  | cons p ps => simp [skipRule, hp, beq_iff_eq]

/-- C4: for every configuration that contains a references list and no
compilerOptions entry, evaluation produces zero violations and zero
passed records for every rule whose path starts at compilerOptions,
regardless of the rule's kind, while every rule whose path starts
elsewhere is still evaluated into exactly one of the two lists. -/
theorem c4_references_only_skip :
    ∀ (rules : List Rule) (m : List (String × PyVal)) (l : List PyVal)
      (cf : String),
      pyLookup "references" m = some (PyVal.list l) →
      pyLookup "compilerOptions" m = Option.none →
      evaluate rules cf (Except.ok (PyVal.dict m))
          = EvalOutcome.ok (vsOf rules m cf) (psOf rules m cf) ∧
      (∀ r ∈ rules, r.path.head? = some "compilerOptions" →
         (∀ v ∈ vsOf rules m cf, v.rule ≠ r) ∧ r ∉ psOf rules m cf) ∧
      (∀ r ∈ rules, r.path.head? ≠ some "compilerOptions" →
         (∃ v ∈ vsOf rules m cf, v.rule = r) ∨ r ∈ psOf rules m cf) := by
  intro rules m l cf h1 h2
  have href : isRefDict m = true := by
    unfold isRefDict
    rw [h1, h2]
    rfl
  refine ⟨evaluate_dict rules m cf, ?_, ?_⟩
  · intro r hr hh
    constructor
    · intro v hv hvr
      rw [vsOf, href] at hv
      obtain ⟨r', _, hsk, he⟩ := mem_evalLoop_fst.mp hv
      have : v.rule = r' := evalRuleOn_rule he
      rw [hvr] at this
      rw [← this] at hsk
      rw [skipRule_true_iff.mpr hh] at hsk
      exact Bool.noConfusion hsk
    · intro hmem
      rw [psOf, href] at hmem
      obtain ⟨_, hsk, _⟩ := mem_evalLoop_snd.mp hmem
      rw [skipRule_true_iff.mpr hh] at hsk
      exact Bool.noConfusion hsk
  · intro r hr hh
    have hsk : skipRule true r = false := by
      cases hb : skipRule true r with
      | false => rfl
      | true => exact absurd (skipRule_true_iff.mp hb) hh
    cases he : evaluateRule r (PyVal.dict m) cf with
    | some v =>
      left
      refine ⟨v, ?_, evalRuleOn_rule he⟩
      rw [vsOf, href]
      exact mem_evalLoop_fst.mpr ⟨r, hr, hsk, he⟩
    | none =>
      right
      rw [psOf, href]
      exact mem_evalLoop_snd.mpr ⟨hr, hsk, he⟩

theorem c4_witness :
    strictRule ∉ psOf [strictRule] refsOnlyCfg "tsconfig.json" ∧
    (∀ v ∈ vsOf [strictRule] refsOnlyCfg "tsconfig.json", v.rule ≠ strictRule) := by
  have h := (c4_references_only_skip [strictRule] refsOnlyCfg
      [PyVal.dict [("path", PyVal.str "./x")]] "tsconfig.json" rfl rfl).2.1
      strictRule (List.mem_singleton.mpr rfl) rfl
  exact ⟨h.2, h.1⟩

/-- C10: for every configuration that parses successfully (a mapping, as
in the data model), evaluation partitions the rule list: each rule is
either skipped (references-only configuration and a path rooted at
compilerOptions) or lands in exactly one of the violations and
passed_rules lists - never both, never neither - so the two lengths add
up to the number of non-skipped rules. -/
theorem c10_partition :
    ∀ (rules : List Rule) (m : List (String × PyVal)) (cf : String),
      evaluate rules cf (Except.ok (PyVal.dict m))
          = EvalOutcome.ok (vsOf rules m cf) (psOf rules m cf) ∧
      (vsOf rules m cf).length + (psOf rules m cf).length
          = (rules.filter (fun r => !skipRule (isRefDict m) r)).length ∧
      (∀ r ∈ rules,
        (skipRule (isRefDict m) r = true →
           (∀ v ∈ vsOf rules m cf, v.rule ≠ r) ∧ r ∉ psOf rules m cf) ∧
        (skipRule (isRefDict m) r = false →
           ((∃ v ∈ vsOf rules m cf, v.rule = r) ∧ r ∉ psOf rules m cf) ∨
           ((∀ v ∈ vsOf rules m cf, v.rule ≠ r) ∧ r ∈ psOf rules m cf))) := by
  intro rules m cf
  refine ⟨evaluate_dict rules m cf, evalLoop_length rules (isRefDict m)
    (PyVal.dict m) cf, ?_⟩
  intro r hr
  constructor
  · intro hskip
    constructor
    · intro v hv hvr
      obtain ⟨r', _, hsk, he⟩ := mem_evalLoop_fst.mp hv
      have hrr : v.rule = r' := evalRuleOn_rule he
      rw [hvr] at hrr
      rw [← hrr, hskip] at hsk
      exact Bool.noConfusion hsk
    · intro hmem
      obtain ⟨_, hsk, _⟩ := mem_evalLoop_snd.mp hmem
      rw [hskip] at hsk
      exact Bool.noConfusion hsk
  · intro hskip
    cases he : evaluateRule r (PyVal.dict m) cf with
    | some v =>
      left
      constructor
      · exact ⟨v, mem_evalLoop_fst.mpr ⟨r, hr, hskip, he⟩, evalRuleOn_rule he⟩
      · intro hmem
        obtain ⟨_, _, hnone⟩ := mem_evalLoop_snd.mp hmem
        rw [he] at hnone
        exact Option.noConfusion hnone
    | none =>
      right
      constructor
      · intro v hv hvr
        obtain ⟨r', _, hsk, he'⟩ := mem_evalLoop_fst.mp hv
        have hrr : v.rule = r' := evalRuleOn_rule he'
        rw [hvr] at hrr
        rw [← hrr, he] at he'
        exact Option.noConfusion he'
      · exact mem_evalLoop_snd.mpr ⟨hr, hskip, he⟩

theorem c10_witness :
    (vsOf [strictRule] refsOnlyCfg "tsconfig.json").length
        + (psOf [strictRule] refsOnlyCfg "tsconfig.json").length
      = ([strictRule].filter
          (fun r => !skipRule (isRefDict refsOnlyCfg) r)).length :=
  (c10_partition [strictRule] refsOnlyCfg "tsconfig.json").2.1

theorem flattenToks_map_raw : ∀ cs : List Char, flattenToks (cs.map Tok.raw) = cs := by
  intro cs
  induction cs with
  | nil => rfl
  | cons c cs ih => simp [flattenToks, ih]

theorem dropWhile_head_false {α : Type} {p : α → Bool} :
    ∀ (l : List α) {x : α} {xs : List α}, l.dropWhile p = x :: xs → p x = false := by
  intro l
  induction l with
  | nil => intro x xs h; exact List.noConfusion h
  | cons c cs ih =>
    intro x xs h
    rw [List.dropWhile_cons] at h
    split at h
    · exact ih h
    · next hc =>
      injection h with h1 _
      subst h1
      exact eq_false_of_ne_true hc

theorem lexStringF_spec :
    ∀ (f : Nat) (cs l r : List Char), lexStringF f cs = some (l, r) →
      l ++ r = cs ∧ l ≠ [] := by
  intro f
  induction f with
  | zero => intro cs l r h; exact Option.noConfusion h
  | succ f ih =>
    intro cs l r h
    unfold lexStringF at h
    cases hd : cs.dropWhile (fun c => c != '"' && c != '\\') with
    | nil => rw [hd] at h; exact Option.noConfusion h
    | cons d rest =>
      rw [hd] at h
      have hpd : (d != '"' && d != '\\') = false := dropWhile_head_false cs hd
      have hsplit := List.takeWhile_append_dropWhile
        (fun c => c != '"' && c != '\\') cs
      rw [hd] at hsplit
      dsimp only at h
      by_cases hq : d == '"'
      · rw [if_pos hq] at h
        injection h with h'
        injection h' with hl hr
        subst hl; subst hr
        refine ⟨?_, by simp⟩
        have hdq : d = '"' := by simpa using hq
        rw [hdq] at hsplit
        simpa using hsplit
      · rw [if_neg hq] at h
        cases rest with
        | nil => exact Option.noConfusion h
        | cons e rest' =>
          dsimp only at h
          by_cases hn : e != '\n'
          · rw [if_pos hn] at h
            cases hrec : lexStringF f rest' with
            | none => rw [hrec] at h; exact Option.noConfusion h
            | some p =>
              obtain ⟨l0, r0⟩ := p
              rw [hrec] at h
              dsimp only at h
              injection h with h'
              injection h' with hl hr
              subst hl; subst hr
              obtain ⟨happ, _⟩ := ih rest' l0 r0 hrec
              refine ⟨?_, by simp⟩
              have hassoc : (List.takeWhile (fun c => c != '"' && c != '\\') cs
                    ++ d :: e :: l0) ++ r0
                  = List.takeWhile (fun c => c != '"' && c != '\\') cs
                    ++ d :: e :: (l0 ++ r0) := by simp
              rw [hassoc, happ]
              exact hsplit
          · rw [if_neg hn] at h; exact Option.noConfusion h

theorem lexToksF_flatten : ∀ (f : Nat) (cs : List Char),
    flattenToks (lexToksF f cs) = cs := by
  intro f
  induction f with
  | zero => intro cs; exact flattenToks_map_raw cs
  | succ f ih =>
    intro cs
    cases cs with
    | nil => rfl
    | cons c cs =>
      unfold lexToksF
      by_cases hq : c == '"'
      · rw [if_pos hq]
        have hc : c = '"' := by simpa using hq
        cases hls : lexString cs with
        | none => simp [flattenToks, ih, hc]
        | some p =>
          obtain ⟨l, rest⟩ := p
          obtain ⟨happ, _⟩ := lexStringF_spec cs.length cs l rest hls
          simp only [flattenToks, ih]
          rw [hc, ← happ]
          simp
      · rw [if_neg hq]
        simp [flattenToks, ih]

theorem dropBlockF_id : ∀ (f : Nat) (ts : List Tok),
    commentFree ts = true → dropBlockF f ts = ts := by
  intro f
  induction f with
  | zero => intro ts _; rfl
  | succ f ih =>
    intro ts h
    cases ts with
    | nil => rfl
    | cons t1 ts' =>
      cases ts' with
      | nil => rfl
      | cons t2 rest =>
        unfold commentFree at h
        rw [Bool.and_eq_true] at h
        obtain ⟨hne, hcf⟩ := h
        have hcond : (isRawC '/' t1 && isRawC '*' t2) = false := by
          rw [Bool.not_eq_true'] at hne
          cases h1 : isRawC '/' t1 <;> cases h2 : isRawC '*' t2 <;>
            simp_all
        unfold dropBlockF
        rw [hcond]
        simp only [Bool.false_eq_true, if_false]
        rw [ih (t2 :: rest) hcf]

theorem dropLineF_id : ∀ (f : Nat) (ts : List Tok),
    commentFree ts = true → dropLineF f ts = ts := by
  intro f
  induction f with
  | zero => intro ts _; rfl
  | succ f ih =>
    intro ts h
    cases ts with
    | nil => rfl
    | cons t1 ts' =>
      cases ts' with
      | nil => rfl
      | cons t2 rest =>
        unfold commentFree at h
        rw [Bool.and_eq_true] at h
        obtain ⟨hne, hcf⟩ := h
        have hcond : (isRawC '/' t1 && isRawC '/' t2) = false := by
          rw [Bool.not_eq_true'] at hne
          cases h1 : isRawC '/' t1 <;> cases h2 : isRawC '/' t2 <;>
            simp_all
        unfold dropLineF
        rw [hcond]
        simp only [Bool.false_eq_true, if_false]
        rw [ih (t2 :: rest) hcf]

/-- C6 (amended): the comment-stripping transformation leaves unchanged
any text whose string literals lex completely and whose raw text outside
string literals contains no comment opener - in particular it is
idempotent on already-clean JSON text, where it preserves every string
literal verbatim, including literals containing the substrings // or /*.
(A string literal lying inside a removed comment is removed with its
comment, which is what refutes the claim as stated; see the
counterexample.) -/
theorem c6_strip_clean_fixed : ∀ s : String,
    commentFree (lexToks s.data) = true → stripComments s = s := by
  intro s h
  unfold stripComments
  simp only
  rw [dropBlockF_id _ _ h, dropLineF_id _ _ h]
  rw [lexToks, lexToksF_flatten]

/-- C6 counterexample: the claim as stated says comment stripping leaves
every string literal unaltered for every input; but on the input
/* "a//b" */ the string literal "a//b" (which contains //) is removed
together with its enclosing block comment - the output is empty, so the
literal does not survive unaltered. -/
theorem c6_cex :
    stripComments "/* \"a//b\" */" = "" ∧
    hasSub "\"a//b\"".data ("/* \"a//b\" */".data) = true ∧
    hasSub "\"a//b\"".data ((stripComments "/* \"a//b\" */").data) = false := by
  refine ⟨by decide, by decide, by decide⟩

theorem c6_witness :
    commentFree (lexToks "\x7b \"a\": \"b//c\", \"d\": \"/*x*/\" \x7d".data) = true ∧
    stripComments "\x7b \"a\": \"b//c\", \"d\": \"/*x*/\" \x7d"
      = "\x7b \"a\": \"b//c\", \"d\": \"/*x*/\" \x7d" :=
  ⟨by decide, c6_strip_clean_fixed _ (by decide)⟩

/-- C7: trailing-comma stripping, applied as three repeated passes of
the comma-before-closing-bracket substitution, maps the two sample
inputs to their cleaned forms, handling the nested trailing commas. -/
theorem c7_trailing_commas :
    stripTrailingCommas "\x7b\"a\":1,\x7d" = "\x7b\"a\":1\x7d" ∧
    stripTrailingCommas "\x7b\"a\":[1,2,],\x7d" = "\x7b\"a\":[1,2]\x7d" :=
  ⟨by decide, by decide⟩

theorem autoQuoteGoF_nil : ∀ f : Nat, autoQuoteGoF f [] = [] := by
  intro f; cases f <;> rfl

theorem autoQuoteGoF_nosub : ∀ (f : Nat) (cs : List Char),
    hasSub globsKey cs = false → autoQuoteGoF f cs = cs := by
  intro f
  induction f with
  | zero => intro cs _; rfl
  | succ f ih =>
    intro cs h
    cases cs with
    | nil => rfl
    | cons c cs =>
      unfold hasSub at h
      rw [Bool.or_eq_false_iff] at h
      obtain ⟨hpre, hsub⟩ := h
      unfold autoQuoteGoF
      rw [hpre]
      simp only [Bool.false_eq_true, if_false]
      rw [ih cs hsub]

theorem autoQuoteGoF_globs_line : ∀ (f : Nat) (v : List Char),
    (∀ c ∈ v, c ≠ '\n' ∧ c ≠ '"') →
    (∀ c, v.head? = some c → isPySpace c = false) →
    v ≠ [] →
    autoQuoteGoF (f + 1) ('g' :: 'l' :: 'o' :: 'b' :: 's' :: ':' :: ' ' :: v)
      = 'g' :: 'l' :: 'o' :: 'b' :: 's' :: ':' :: ' ' :: '"' :: (v ++ ['"']) := by
  intro f v hv hhead hne
  obtain ⟨c0, v', rfl⟩ : ∃ c0 v', v = c0 :: v' := by
    cases v with
    | nil => exact absurd rfl hne
    | cons a b => exact ⟨a, b, rfl⟩
  have hc0 : isPySpace c0 = false := hhead c0 rfl
  have hgood : ∀ c ∈ c0 :: v', (c != '\n' && c != '"') = true := by
    intro c hc
    obtain ⟨h1, h2⟩ := hv c hc
    simp [bne_iff_ne, h1, h2]
  have hok : headOkQ (c0 :: v') = true := by
    obtain ⟨h1, h2⟩ := hv c0 (List.mem_cons_self c0 v')
    simp [headOkQ, bne_iff_ne, h1, h2]
  unfold autoQuoteGoF
  rw [if_pos (by rfl)]
  have hdrop : ('l' :: 'o' :: 'b' :: 's' :: ':' :: ' ' :: c0 :: v').drop 5
      = ' ' :: c0 :: v' := rfl
  rw [hdrop]
  dsimp only
  have hws : (' ' :: c0 :: v').takeWhile isPySpace = [' '] := by
    rw [List.takeWhile_cons, if_pos (by decide), List.takeWhile_cons, if_neg (by simp [hc0])]
  have htl : (' ' :: c0 :: v').dropWhile isPySpace = c0 :: v' := by
    rw [List.dropWhile_cons, if_pos (by decide), List.dropWhile_cons, if_neg (by simp [hc0])]
  rw [hws, htl]
  have hpick : pickRev [' '].reverse (c0 :: v') = some ([' '], c0 :: v') := by
    have : ([' '] : List Char).reverse = [' '] := rfl
    rw [this]
    unfold pickRev
    rw [if_pos hok]
    rfl
  rw [hpick]
  dsimp only
  have hval : (c0 :: v').takeWhile (fun ch => ch != '\n' && ch != '"') = c0 :: v' :=
    takeWhile_all _ hgood
  have hrest : (c0 :: v').dropWhile (fun ch => ch != '\n' && ch != '"') = [] :=
    dropWhile_all _ hgood
  rw [hval, hrest, autoQuoteGoF_nil]
  simp [globsKey]

/-- C8 (amended): the front-matter auto-quoting applies only to the
globs key, not to every key: a line whose text contains no globs: marker
is left completely unchanged, while a globs: line with a nonempty
unquoted value (no quote, no newline, not starting with whitespace) has
exactly that value wrapped in double quotes before the yaml parse. -/
theorem c8_globs_only_quoted :
    (∀ s : String, hasSub globsKey s.data = false → autoQuote s = s) ∧
    (∀ v : String, (∀ c ∈ v.data, c ≠ '\n' ∧ c ≠ '"') →
       (∀ c, v.data.head? = some c → isPySpace c = false) → v ≠ "" →
       autoQuote ("globs: " ++ v) = "globs: \"" ++ v ++ "\"") := by
  constructor
  · intro s h
    unfold autoQuote
    rw [autoQuoteGoF_nosub s.data.length s.data h]
  · intro v hv hhead hne
    have hdata : ("globs: " ++ v).data
        = 'g' :: 'l' :: 'o' :: 'b' :: 's' :: ':' :: ' ' :: v.data := by
      rw [String.data_append]
      rfl
    have hvne : v.data ≠ [] := by
      intro hnil
      apply hne
      cases v with
      | mk data => simp only at hnil; rw [hnil]
    unfold autoQuote
    rw [hdata]
    have hlen : ('g' :: 'l' :: 'o' :: 'b' :: 's' :: ':' :: ' ' :: v.data).length
        = (6 + v.data.length) + 1 := by
      simp only [List.length_cons]
      omega
    rw [hlen]
    rw [autoQuoteGoF_globs_line (6 + v.data.length) v.data hv hhead hvne]
    have hrhs : ("globs: \"" ++ v ++ "\"").data
        = 'g' :: 'l' :: 'o' :: 'b' :: 's' :: ':' :: ' ' :: '"' :: (v.data ++ ['"']) := by
      rw [String.data_append, String.data_append]
      rfl
    rw [← hrhs]

/-- C8 counterexample: the claim as stated says every front-matter line
key: <unquoted-value-with-special-characters> - for any key - has its
value auto-quoted; but the substitution only targets globs:, so the line
alwaysApply: a,*b is left unchanged instead of becoming
alwaysApply: "a,*b". -/
theorem c8_cex :
    autoQuote "alwaysApply: a,*b" = "alwaysApply: a,*b" ∧
    autoQuote "alwaysApply: a,*b" ≠ "alwaysApply: \"a,*b\"" :=
  ⟨by decide, by decide⟩

theorem c8_witness :
    autoQuote "globs: *.ts,src/**" = "globs: \"*.ts,src/**\"" ∧
    autoQuote "description: Convex rules" = "description: Convex rules" :=
  ⟨c8_globs_only_quoted.2 "*.ts,src/**" (by decide) (by decide) (by decide),
   c8_globs_only_quoted.1 "description: Convex rules" (by decide)⟩

theorem mem_of_getLast?_eq {α : Type} :
    ∀ {l : List α} {a : α}, l.getLast? = some a → a ∈ l := by
  intro l
  induction l with
  | nil => intro a h; exact Option.noConfusion h
  | cons c cs ih =>
    intro a h
    cases cs with
    | nil =>
      have : (some c : Option α) = some a := h
      injection this with h'
      subst h'
      exact List.mem_singleton.mpr rfl
    | cons d ds =>
      rw [List.getLast?_cons_cons] at h
      exact List.mem_cons_of_mem c (ih h)

theorem takeWhile_append_of_break {α : Type} {p : α → Bool} :
    ∀ (l1 l2 : List α), l1.dropWhile p ≠ [] →
      ((l1 ++ l2).takeWhile p = l1.takeWhile p ∧
       (l1 ++ l2).dropWhile p = l1.dropWhile p ++ l2) := by
  intro l1
  induction l1 with
  | nil => intro l2 h; exact absurd rfl h
  | cons c cs ih =>
    intro l2 h
    by_cases hc : p c = true
    · rw [List.dropWhile_cons, if_pos hc] at h
      obtain ⟨h1, h2⟩ := ih l2 h
      constructor
      · rw [List.cons_append, List.takeWhile_cons, if_pos hc, h1,
          List.takeWhile_cons, if_pos hc]
      · rw [List.cons_append, List.dropWhile_cons, if_pos hc, h2,
          List.dropWhile_cons, if_pos hc]
    · constructor
      · rw [List.cons_append, List.takeWhile_cons, if_neg hc,
          List.takeWhile_cons, if_neg hc]
      · rw [List.cons_append, List.dropWhile_cons, if_neg hc,
          List.dropWhile_cons, if_neg hc, List.cons_append]

theorem tryHeading_not_hash {c : Char} (cs : List Char) (hc : c ≠ '#') :
    tryHeading (c :: cs) = Option.none := by
  have hbeq : (c == '#') = false := beq_eq_false_iff_ne.mpr hc
  unfold tryHeading
  rw [List.takeWhile_cons, hbeq]
  rfl

theorem tryHeading_sublist : ∀ {cs hd a : List Char},
    tryHeading cs = some (hd, a) → a.Sublist cs := by
  intro cs hd a ht
  unfold tryHeading at ht
  dsimp only at ht
  split at ht
  · exact Option.noConfusion ht
  · split at ht
    · exact Option.noConfusion ht
    · injection ht with ht'
      injection ht' with h1 h2
      subst h2
      exact ((List.dropWhile_sublist _).trans
        ((List.dropWhile_sublist _).trans (List.dropWhile_sublist _)))

theorem scanPartsF_nil : ∀ f : Nat, scanPartsF f [] = ([], []) := by
  intro f
  cases f <;> rfl

theorem scanPartsF_mono : ∀ (f g : Nat) (cs : List Char),
    cs.length ≤ f → cs.length ≤ g → scanPartsF f cs = scanPartsF g cs := by
  intro f
  induction f with
  | zero =>
    intro g cs hf _
    have : cs = [] := List.length_eq_zero.mp (Nat.le_zero.mp hf)
    subst this
    rw [scanPartsF_nil, scanPartsF_nil]
  | succ f ih =>
    intro g cs hf hg
    cases cs with
    | nil => rw [scanPartsF_nil, scanPartsF_nil]
    | cons c cs' =>
      cases g with
      | zero => exact absurd hg (by simp)
      | succ g =>
        unfold scanPartsF
        cases ht : tryHeading (c :: cs') with
        | some p =>
          obtain ⟨hd, after⟩ := p
          dsimp only
          cases after with
          | nil => rfl
          | cons nl rest =>
            have hsub : (nl :: rest).Sublist (c :: cs') := tryHeading_sublist ht
            have hlen : rest.length ≤ cs'.length := by
              have := hsub.length_le
              simp at this
              omega
            dsimp only
            rw [ih g rest (by simp at hf; omega) (by simp at hg; omega)]
        | none =>
          dsimp only
          cases hd : (c :: cs').dropWhile (fun ch => ch != '\n') with
          | nil => rfl
          | cons nl rest =>
            have hsub : (nl :: rest).Sublist (c :: cs') := by
              rw [← hd]; exact List.dropWhile_sublist _
            have hlen : rest.length ≤ cs'.length := by
              have := hsub.length_le
              simp at this
              omega
            dsimp only
            rw [ih g rest (by simp at hf; omega) (by simp at hg; omega)]

theorem scanPartsF_no_hash : ∀ (f : Nat) (cs : List Char),
    (∀ c ∈ cs, c ≠ '#') → scanPartsF f cs = (cs, []) := by
  intro f
  induction f with
  | zero => intro cs _; rfl
  | succ f ih =>
    intro cs h
    cases cs with
    | nil => rfl
    | cons c cs' =>
      unfold scanPartsF
      rw [tryHeading_not_hash cs' (h c (List.mem_cons_self c cs'))]
      dsimp only
      have hsplit := List.takeWhile_append_dropWhile (fun ch => ch != '\n') (c :: cs')
      cases hd : (c :: cs').dropWhile (fun ch => ch != '\n') with
      | nil =>
        rw [hd] at hsplit
        rw [List.append_nil] at hsplit
        rw [hsplit]
      | cons nl rest =>
        have hsubrest : rest.Sublist (c :: cs') := by
          have : (nl :: rest).Sublist (c :: cs') := by
            rw [← hd]; exact List.dropWhile_sublist _
          exact (List.sublist_cons_self nl rest).trans this
        have hrest : ∀ x ∈ rest, x ≠ '#' := fun x hx => h x (hsubrest.subset hx)
        dsimp only
        rw [ih rest hrest]
        rw [hd] at hsplit
        dsimp only
        rw [hsplit]

theorem scanPartsF_heading : ∀ (f : Nat) (X : List Char),
    scanPartsF (f + 1) ('#' :: ' ' :: 'T' :: '\n' :: X)
      = ([], (['#', ' ', 'T'], '\n' :: (scanPartsF f X).1) :: (scanPartsF f X).2) := by
  intro f X
  rfl

theorem getLast?_append_right {α : Type} :
    ∀ (l1 l2 : List α), l2 ≠ [] → (l1 ++ l2).getLast? = l2.getLast? := by
  intro l1
  induction l1 with
  | nil => intro l2 _; rfl
  | cons a l1' ih =>
    intro l2 h2
    rw [List.cons_append]
    have hne : l1' ++ l2 ≠ [] := by
      intro hnil
      rcases List.append_eq_nil.mp hnil with ⟨_, h⟩
      exact h2 h
    cases hl : l1' ++ l2 with
    | nil => exact absurd hl hne
    | cons b bs =>
      rw [List.getLast?_cons_cons, ← hl, ih l2 h2]

theorem scanPartsF_text_block : ∀ (f : Nat) (pre rest : List Char),
    (∀ c ∈ pre, c ≠ '#') →
    (pre = [] ∨ pre.getLast? = some '\n') →
    pre.length + rest.length ≤ f →
    scanPartsF f (pre ++ rest)
      = (pre ++ (scanParts rest).1, (scanParts rest).2) := by
  intro f
  induction f with
  | zero =>
    intro pre rest _ _ hLen
    have hpre : pre = [] := by
      cases pre with
      | nil => rfl
      | cons a b => simp at hLen
    subst hpre
    have hrest : rest = [] := by
      cases rest with
      | nil => rfl
      | cons a b => simp at hLen
    subst hrest
    simp [scanParts, scanPartsF_nil]
  | succ f ih =>
    intro pre rest hh hlast hLen
    cases pre with
    | nil =>
      simp only [List.nil_append]
      rw [scanPartsF_mono (f + 1) rest.length rest (by simpa using hLen)
        (Nat.le_refl _)]
      rw [scanParts, Prod.mk.eta]
    | cons c pre' =>
      have hc : c ≠ '#' := hh c (List.mem_cons_self c pre')
      have hlast' : (c :: pre').getLast? = some '\n' := by
        cases hlast with
        | inl h => exact absurd h (by simp)
        | inr h => exact h
      have hnl : '\n' ∈ c :: pre' := mem_of_getLast?_eq hlast'
      have hdne : (c :: pre').dropWhile (fun ch => ch != '\n') ≠ [] := by
        intro hnil
        rw [List.dropWhile_eq_nil_iff] at hnil
        have := hnil '\n' hnl
        simp at this
      obtain ⟨hTake, hDrop⟩ :=
        takeWhile_append_of_break (p := fun ch => ch != '\n') (c :: pre') rest hdne
      have hsplit := List.takeWhile_append_dropWhile
        (fun ch => ch != '\n') (c :: pre')
      rw [List.cons_append]
      rw [List.cons_append] at hTake hDrop
      unfold scanPartsF
      rw [tryHeading_not_hash _ hc]
      dsimp only
      cases hdd : (c :: pre').dropWhile (fun ch => ch != '\n') with
      | nil => exact absurd hdd hdne
      | cons dn dtl =>
        rw [hdd] at hDrop hsplit
        rw [List.cons_append] at hDrop
        have hdn : dn = '\n' := by
          have := dropWhile_head_false (c :: pre') hdd
          simpa using this
        have hsuffix : (dn :: dtl).IsSuffix (c :: pre') := by
          rw [← hdd]; exact List.dropWhile_suffix _
        have hdtl_sub : dtl.Sublist (c :: pre') :=
          (List.sublist_cons_self dn dtl).trans hsuffix.sublist
        have hdtl_hash : ∀ x ∈ dtl, x ≠ '#' :=
          fun x hx => hh x (hdtl_sub.subset hx)
        have hdtl_last : dtl = [] ∨ dtl.getLast? = some '\n' := by
          cases hdt : dtl with
          | nil => exact Or.inl rfl
          | cons e es =>
            right
            obtain ⟨w, hw⟩ := hsuffix
            rw [hdt] at hw
            have h1 : (w ++ dn :: e :: es).getLast? = (dn :: e :: es).getLast? :=
              getLast?_append_right w (dn :: e :: es) (by simp)
            rw [hw] at h1
            rw [List.getLast?_cons_cons] at h1
            rw [← h1, hlast']
        have hlen_dtl : dtl.length + rest.length ≤ f := by
          have h1 : (c :: pre').length =
              ((c :: pre').takeWhile (fun ch => ch != '\n')).length
                + (dn :: dtl).length := by
            conv_lhs => rw [← hsplit]
            rw [List.length_append]
          simp only [List.length_cons] at h1 hLen ⊢
          omega
        rw [hDrop]
        dsimp only
        rw [ih dtl rest hdtl_hash hdtl_last hlen_dtl]
        rw [hTake]
        congr 1
        rw [← List.cons_append dn dtl ((scanParts rest).1), ← List.append_assoc,
          hsplit, List.cons_append]

theorem scanParts_heading_block : ∀ (tail : List Char),
    scanParts ('#' :: ' ' :: 'T' :: '\n' :: tail)
      = ([], (['#', ' ', 'T'], '\n' :: (scanParts tail).1)
             :: (scanParts tail).2) := by
  intro tail
  rw [scanParts]
  have hlen : ('#' :: ' ' :: 'T' :: '\n' :: tail).length
      = (tail.length + 3) + 1 := by
    simp only [List.length_cons]
  rw [hlen, scanPartsF_heading]
  rw [scanPartsF_mono (tail.length + 3) tail.length tail (by omega) (Nat.le_refl _)]
  rfl

/-- C9 (amended): section parsing discards the text before the first
heading - no "root" entry is created (the root default in the source is
dead) - while each heading's stripped title keys its body text up to the
next heading of any level, and when two headings carry the same title
the later one's body wins.  Stated for a document with leading text pre,
two headings titled T and bodies b1 and b2 (none containing a hash, pre
empty or newline-terminated). -/
theorem c9_sections : ∀ pre b1 b2 : String,
    (∀ c ∈ pre.data, c ≠ '#') → (∀ c ∈ b1.data, c ≠ '#') →
    (∀ c ∈ b2.data, c ≠ '#') →
    (pre = "" ∨ pre.data.getLast? = some '\n') →
    parseMDCSections (pre ++ "# T\n" ++ b1 ++ "\n# T\n" ++ b2)
        = [("T", "\n" ++ b1 ++ "\n"), ("T", "\n" ++ b2)] ∧
    sectionsFind (parseMDCSections (pre ++ "# T\n" ++ b1 ++ "\n# T\n" ++ b2))
        "root" = Option.none ∧
    sectionsFind (parseMDCSections (pre ++ "# T\n" ++ b1 ++ "\n# T\n" ++ b2))
        "T" = some ("\n" ++ b2) := by
  intro pre b1 b2 hpre hb1 hb2 hlast
  have hdata : (pre ++ "# T\n" ++ b1 ++ "\n# T\n" ++ b2).data
      = pre.data ++ '#' :: ' ' :: 'T' :: '\n' ::
          (b1.data ++ '\n' :: '#' :: ' ' :: 'T' :: '\n' :: b2.data) := by
    simp only [String.data_append]
    simp [List.append_assoc]
  have hlast' : pre.data = [] ∨ pre.data.getLast? = some '\n' := by
    cases hlast with
    | inl h => left; rw [h]
    | inr h => right; exact h
  have hR2 : scanParts ('#' :: ' ' :: 'T' :: '\n' :: b2.data)
      = ([], [(['#', ' ', 'T'], '\n' :: b2.data)]) := by
    rw [scanParts_heading_block]
    rw [scanParts, scanPartsF_no_hash b2.data.length b2.data hb2]
  have hb1nl : ∀ c ∈ b1.data ++ ['\n'], c ≠ '#' := by
    intro c hc
    rcases List.mem_append.mp hc with h | h
    · exact hb1 c h
    · rw [List.mem_singleton] at h; subst h; decide
  have hREST1 : scanParts (b1.data ++ '\n' :: '#' :: ' ' :: 'T' :: '\n' :: b2.data)
      = (b1.data ++ ['\n'], [(['#', ' ', 'T'], '\n' :: b2.data)]) := by
    have hassoc : b1.data ++ '\n' :: '#' :: ' ' :: 'T' :: '\n' :: b2.data
        = (b1.data ++ ['\n']) ++ ('#' :: ' ' :: 'T' :: '\n' :: b2.data) := by
      simp
    rw [hassoc, scanParts]
    rw [scanPartsF_text_block _ (b1.data ++ ['\n'])
      ('#' :: ' ' :: 'T' :: '\n' :: b2.data) hb1nl
      (Or.inr (List.getLast?_concat b1.data)) (by simp; omega)]
    rw [hR2]
    simp
  have hR1 : scanParts ('#' :: ' ' :: 'T' :: '\n' ::
        (b1.data ++ '\n' :: '#' :: ' ' :: 'T' :: '\n' :: b2.data))
      = ([], [(['#', ' ', 'T'], '\n' :: (b1.data ++ ['\n'])),
              (['#', ' ', 'T'], '\n' :: b2.data)]) := by
    rw [scanParts_heading_block, hREST1]
  have hscan : scanParts ((pre ++ "# T\n" ++ b1 ++ "\n# T\n" ++ b2).data)
      = (pre.data ++ [], [(['#', ' ', 'T'], '\n' :: (b1.data ++ ['\n'])),
              (['#', ' ', 'T'], '\n' :: b2.data)]) := by
    rw [hdata, scanParts]
    rw [scanPartsF_text_block _ pre.data
      ('#' :: ' ' :: 'T' :: '\n' ::
        (b1.data ++ '\n' :: '#' :: ' ' :: 'T' :: '\n' :: b2.data))
      hpre hlast' (by simp)]
    rw [hR1]
  have hstr1 : String.mk ('\n' :: (b1.data ++ ['\n'])) = "\n" ++ b1 ++ "\n" := by
    have hd : ("\n" ++ b1 ++ "\n").data = '\n' :: (b1.data ++ ['\n']) := by
      simp [String.data_append]
    rw [← hd]
  have hstr2 : String.mk ('\n' :: b2.data) = "\n" ++ b2 := by
    have hd : ("\n" ++ b2).data = '\n' :: b2.data := by
      simp [String.data_append]
    rw [← hd]
  have hparse : parseMDCSections (pre ++ "# T\n" ++ b1 ++ "\n# T\n" ++ b2)
      = [("T", "\n" ++ b1 ++ "\n"), ("T", "\n" ++ b2)] := by
    unfold parseMDCSections
    rw [hscan]
    simp only [List.map_cons, List.map_nil]
    rw [hstr1, hstr2]
    rfl
  refine ⟨hparse, ?_, ?_⟩ <;> rw [hparse] <;> rfl

/-- C9 counterexample: the claim as stated says the text before the
first heading is stored under the key "root"; on the document
intro(newline)# A(newline)body the sections mapping has no "root" entry
at all - lookup of "root" yields none, not some "intro\n" - because the
parse loop only stores captured headings. -/
theorem c9_cex :
    sectionsFind (parseMDCSections "intro\n# A\nbody") "root" = Option.none ∧
    sectionsFind (parseMDCSections "intro\n# A\nbody") "root" ≠ some "intro\n" ∧
    parseMDCSections "intro\n# A\nbody" = [("A", "\nbody")] :=
  ⟨by decide, by decide, by decide⟩

theorem c9_witness :
    parseMDCSections ("intro\n" ++ "# T\n" ++ "one" ++ "\n# T\n" ++ "two")
        = [("T", "\n" ++ "one" ++ "\n"), ("T", "\n" ++ "two")] ∧
    sectionsFind
        (parseMDCSections ("intro\n" ++ "# T\n" ++ "one" ++ "\n# T\n" ++ "two"))
        "root" = Option.none ∧
    sectionsFind
        (parseMDCSections ("intro\n" ++ "# T\n" ++ "one" ++ "\n# T\n" ++ "two"))
        "T" = some ("\n" ++ "two") :=
  c9_sections "intro\n" "one" "two" (by decide) (by decide) (by decide)
    (Or.inr (by decide))
